import Mathlib

/-!
Verification of the PatchMind patch-masking and reconstruction-loss core
(notebook PatchMind_MAE_CIFAR10): the patchify/unpatchify tensor codec,
the random_masking policy, and the masked reconstruction loss.

The patch codec is embedded over a flat tensor model: a tensor is a shape
(list of dimension sizes) together with row-major flat data, so that
torch reshape (a pure size check that keeps the flat data) and permute
(a re-indexing of the flat data through multi-index decomposition) are
modelled exactly.  Values are idealized as rationals.  Fallible torch
operations (reshape with mismatched sizes, failed assertions) return none.

The masking policy and the loss are embedded over shape-indexed functions
(Fin B -> Fin N -> Fin D -> Rat), with the random draw of torch.rand made
an explicit noise argument, and argsort modelled as the sorting
permutation with ties broken by index (torch.rand draws are almost surely
distinct, so tie-breaking is immaterial).
-/

/-- Row-major multi-index decomposition: component a of the multi-index of
flat position l in a tensor of the given shape. -/
def unflatten : List ℕ → ℕ → ℕ → ℕ
  | [], _, _ => 0
  | _ :: rest, l, 0 => l / rest.prod
  | _ :: rest, l, a + 1 => unflatten rest (l % rest.prod) a

/-- Row-major multi-index recomposition: the flat position of the
multi-index f in a tensor of the given shape. -/
def flatten : List ℕ → (ℕ → ℕ) → ℕ
  | [], _ => 0
  | _ :: rest, f => f 0 * rest.prod + flatten rest (fun a => f (a + 1))

theorem flatten_congr {s : List ℕ} {f g : ℕ → ℕ}
    (h : ∀ a, a < s.length → f a = g a) : flatten s f = flatten s g := by
  induction s generalizing f g with
  | nil => rfl
  | cons d rest ih =>
    simp only [flatten]
    rw [h 0 (by simp), ih (fun a ha => h (a + 1) (by simpa using ha))]

theorem flatten_lt {s : List ℕ} {f : ℕ → ℕ}
    (h : ∀ a, a < s.length → f a < s.getD a 0) : flatten s f < s.prod := by
  induction s generalizing f with
  | nil => simp [flatten]
  | cons d rest ih =>
    simp only [flatten, List.prod_cons]
    have h0 : f 0 < d := by simpa using h 0 (by simp)
    have hrest : flatten rest (fun a => f (a + 1)) < rest.prod :=
      ih (fun a ha => by simpa using h (a + 1) (by simpa using ha))
    calc f 0 * rest.prod + flatten rest (fun a => f (a + 1))
        < f 0 * rest.prod + rest.prod := by omega
      _ = (f 0 + 1) * rest.prod := by ring
      _ ≤ d * rest.prod := Nat.mul_le_mul_right _ h0

theorem flatten_unflatten {s : List ℕ} {l : ℕ} (hl : l < s.prod) :
    flatten s (unflatten s l) = l := by
  induction s generalizing l with
  | nil => simp at hl; simp [flatten, hl]
  | cons d rest ih =>
    have hR : 0 < rest.prod := by
      rcases Nat.eq_zero_or_pos rest.prod with h | h
      · simp [List.prod_cons, h] at hl
      · exact h
    have hmod : l % rest.prod < rest.prod := Nat.mod_lt _ hR
    simp only [flatten, unflatten]
    have : flatten rest (fun a => unflatten rest (l % rest.prod) a)
        = l % rest.prod := ih hmod
    rw [this]
    rw [Nat.mul_comm]
    exact Nat.div_add_mod l rest.prod

theorem unflatten_lt {s : List ℕ} {l : ℕ} (hl : l < s.prod) :
    ∀ a, a < s.length → unflatten s l a < s.getD a 0 := by
  induction s generalizing l with
  | nil => intro a ha; simp at ha
  | cons d rest ih =>
    intro a ha
    have hR : 0 < rest.prod := by
      rcases Nat.eq_zero_or_pos rest.prod with h | h
      · simp [List.prod_cons, h] at hl
      · exact h
    match a with
    | 0 =>
      simp only [unflatten, List.getD_cons_zero]
      rw [Nat.div_lt_iff_lt_mul hR]
      simpa [List.prod_cons, Nat.mul_comm] using hl
    | a + 1 =>
      simp only [unflatten, List.getD_cons_succ]
      exact ih (Nat.mod_lt _ hR) a (by simpa using ha)

theorem unflatten_flatten {s : List ℕ} {f : ℕ → ℕ}
    (h : ∀ b, b < s.length → f b < s.getD b 0) :
    ∀ a, a < s.length → unflatten s (flatten s f) a = f a := by
  induction s generalizing f with
  | nil => intro a ha; simp at ha
  | cons d rest ih =>
    intro a ha
    have hrest : flatten rest (fun b => f (b + 1)) < rest.prod :=
      flatten_lt (fun b hb => by simpa using h (b + 1) (by simpa using hb))
    have hR : 0 < rest.prod := by omega
    match a with
    | 0 =>
      simp only [flatten, unflatten]
      rw [Nat.add_comm, Nat.add_mul_div_right _ _ hR, Nat.div_eq_of_lt hrest,
        Nat.zero_add]
    | a + 1 =>
      simp only [flatten, unflatten]
      rw [Nat.add_comm, Nat.add_mul_mod_self_right, Nat.mod_eq_of_lt hrest]
      exact ih (fun b hb => by simpa using h (b + 1) (by simpa using hb)) a
        (by simpa using ha)

/-- A torch-style tensor: a shape together with row-major flat data.
Only the first shape.prod entries of the data are meaningful. -/
structure Tensor where
  shape : List ℕ
  data : ℕ → ℚ

/-- torch reshape: succeeds exactly when the total element counts agree,
and keeps the flat data unchanged. -/
def Tensor.reshape (t : Tensor) (s : List ℕ) : Option Tensor :=
  if s.prod = t.shape.prod then some ⟨s, t.data⟩ else none

/-- torch permute: axis a of the result is axis dims[a] of the input.
The result is laid out row-major in its own shape, as a contiguous copy
would be, so flat position l of the result is read back through the
permuted multi-index. -/
def Tensor.permute (t : Tensor) (dims : List ℕ) : Tensor :=
  { shape := dims.map (fun a => t.shape.getD a 0)
    data := fun l =>
      t.data (flatten t.shape (fun m =>
        unflatten (dims.map (fun a => t.shape.getD a 0)) l (dims.indexOf m))) }

/-- Bit-exact tensor equality: equal shapes and equal entries at every
in-range flat position. -/
def Tensor.BitEq (t u : Tensor) : Prop :=
  t.shape = u.shape ∧ ∀ l, l < t.shape.prod → t.data l = u.data l

/-- Bit-exact equality of an optional tensor (the result of a fallible
torch computation) with a tensor: the computation must have succeeded and
produced a bit-exact equal result. -/
def Tensor.OBitEq (o : Option Tensor) (u : Tensor) : Prop :=
  match o with
  | some t => Tensor.BitEq t u
  | none => False

/-- patchify from the notebook:
images of shape [B, C, H, W] are cut into non-overlapping
patch_size x patch_size patches, giving shape [B, N, D] with
N = (H/patch_size) * (W/patch_size) and D = patch_size * patch_size * C,
via reshape, permute (0,2,4,3,5,1), reshape.  The assert that H and W are
divisible by patch_size is modelled by returning none on failure. -/
def patchify (imgs : Tensor) (patch_size : ℕ) : Option Tensor :=
  match imgs.shape with
  | [B, C, H, W] =>
    if H % patch_size = 0 ∧ W % patch_size = 0 then
      (imgs.reshape [B, C, H / patch_size, patch_size, W / patch_size,
          patch_size]).bind fun x =>
        (x.permute [0, 2, 4, 3, 5, 1]).reshape
          [B, H / patch_size * (W / patch_size), patch_size * patch_size * C]
    else none
  | _ => none

/-- unpatchify from the notebook: a patch sequence of shape [B, N, D] is
reassembled into images assuming a square patch grid, h = w = int(sqrt N)
(int(N**0.5) is modelled as Nat.sqrt, exact for the feasible range) and
C = D / (patch_size * patch_size) (floor division, as in the source),
via reshape, permute (0,5,1,3,2,4), reshape.  The reshape raises a size
mismatch error exactly when N is not the assumed h*w, modelled as none. -/
def unpatchify (patches : Tensor) (patch_size : ℕ) : Option Tensor :=
  match patches.shape with
  | [B, N, D] =>
    (patches.reshape [B, Nat.sqrt N, Nat.sqrt N, patch_size, patch_size,
        D / (patch_size * patch_size)]).bind fun x =>
      (x.permute [0, 5, 1, 3, 2, 4]).reshape
        [B, D / (patch_size * patch_size), Nat.sqrt N * patch_size,
          Nat.sqrt N * patch_size]
  | _ => none

/-- Decode after encode: the round trip of the patch codec. -/
def roundTrip (imgs : Tensor) (patch_size : ℕ) : Option Tensor :=
  (patchify imgs patch_size).bind fun p => unpatchify p patch_size

/-- Truncation toward zero, the semantics of the Python int() conversion
applied to a nonintegral number. -/
def pyTrunc (q : ℚ) : ℤ :=
  if 0 ≤ q then ⌊q⌋ else -⌊-q⌋

/-- len_keep from random_masking: int(N * (1 - mask_ratio)), clamped to a
natural number (for mask_ratio at most 1 the value is nonnegative, so the
clamp never acts on the cases the code is used with). -/
def lenKeep (N : ℕ) (mask_ratio : ℚ) : ℕ :=
  (pyTrunc ((N : ℚ) * (1 - mask_ratio))).toNat

/-- random_masking from the notebook, over a [B, N, D] patch batch.
The torch.rand draw is the explicit noise argument; argsort is modelled by
Tuple.sort, the sorting permutation with ties broken by index, so
ids_shuffle sends rank to original index and ids_restore is the argsort of
ids_shuffle.  The mask is built as ones with the first len_keep columns
zeroed, then gathered along dim 1 through ids_restore.  The masked batch
is all zeros except that, per image, the rows listed in the first
len_keep entries of ids_shuffle (ids_keep) are copied from the input.
Returns (masked patches, mask). -/
def random_masking {B N D : ℕ} (patches : Fin B → Fin N → Fin D → ℚ)
    (mask_ratio : ℚ) (noise : Fin B → Fin N → ℚ) :
    (Fin B → Fin N → Fin D → ℚ) × (Fin B → Fin N → ℚ) :=
  let len_keep := lenKeep N mask_ratio
  let ids_shuffle : Fin B → Equiv.Perm (Fin N) := fun b => Tuple.sort (noise b)
  let ids_restore : Fin B → Equiv.Perm (Fin N) := fun b =>
    Tuple.sort (fun i => ids_shuffle b i)
  let preMask : Fin B → Fin N → ℚ := fun _ k =>
    if (k : ℕ) < len_keep then 0 else 1
  let mask : Fin B → Fin N → ℚ := fun b n => preMask b (ids_restore b n)
  let masked : Fin B → Fin N → Fin D → ℚ := fun b n d =>
    if ∃ k : Fin N, (k : ℕ) < len_keep ∧ ids_shuffle b k = n then
      patches b n d
    else 0
  (masked, mask)

/-- compute_loss from the notebook: squared error, mean-reduced over the
last dimension to a [B, N] surface, multiplied elementwise by the mask,
summed, and divided by the sum of the mask.  The reference leaves the
zero denominator unguarded: in floating point 0/0 propagates NaN, which
the rational model represents as none. -/
def compute_loss {B N D : ℕ} (original reconstructed : Fin B → Fin N → Fin D → ℚ)
    (mask : Fin B → Fin N → ℚ) : Option ℚ :=
  let loss : Fin B → Fin N → ℚ := fun b n =>
    (∑ d, (original b n d - reconstructed b n d) ^ 2) / (D : ℚ)
  let denom : ℚ := ∑ b, ∑ n, mask b n
  if denom = 0 then none
  else some ((∑ b, ∑ n, loss b n * mask b n) / denom)

theorem sort_perm_inv {N : ℕ} (τ : Equiv.Perm (Fin N)) :
    Tuple.sort (fun i => τ i) = τ⁻¹ := by
  symm
  rw [Tuple.eq_sort_iff]
  constructor
  · have : (fun i => τ i) ∘ (τ⁻¹ : Equiv.Perm (Fin N)) = id := by
      funext i; simp
    rw [this]
    exact monotone_id
  · intro i j hij heq
    simp only [Equiv.Perm.apply_inv_self] at heq
    exact absurd heq hij.ne

theorem random_masking_mask_eq {B N D : ℕ}
    (patches : Fin B → Fin N → Fin D → ℚ) (mask_ratio : ℚ)
    (noise : Fin B → Fin N → ℚ) (b : Fin B) (n : Fin N) :
    (random_masking patches mask_ratio noise).2 b n =
      if (((Tuple.sort (noise b))⁻¹ n : Fin N) : ℕ) < lenKeep N mask_ratio
      then 0 else 1 := by
  simp only [random_masking, sort_perm_inv]

theorem random_masking_masked_eq {B N D : ℕ}
    (patches : Fin B → Fin N → Fin D → ℚ) (mask_ratio : ℚ)
    (noise : Fin B → Fin N → ℚ) (b : Fin B) (n : Fin N) (d : Fin D) :
    (random_masking patches mask_ratio noise).1 b n d =
      if (((Tuple.sort (noise b))⁻¹ n : Fin N) : ℕ) < lenKeep N mask_ratio
      then patches b n d else 0 := by
  simp only [random_masking]
  congr 1
  rw [eq_iff_iff]
  constructor
  · rintro ⟨k, hk, rfl⟩
    simpa using hk
  · intro h
    exact ⟨(Tuple.sort (noise b))⁻¹ n, h, by simp⟩

theorem patchify_eval (dat : ℕ → ℚ) (B C H W P : ℕ)
    (hH : P ∣ H) (hW : P ∣ W) :
    patchify ⟨[B, C, H, W], dat⟩ P =
      some ⟨[B, H / P * (W / P), P * P * C], fun l =>
        dat (flatten [B, C, H / P, P, W / P, P] (fun m =>
          unflatten [B, H / P, W / P, P, P, C] l
            ([0, 2, 4, 3, 5, 1].indexOf m)))⟩ := by
  have hHm : H % P = 0 := Nat.dvd_iff_mod_eq_zero.mp hH
  have hWm : W % P = 0 := Nat.dvd_iff_mod_eq_zero.mp hW
  have hHc : H / P * P = H := Nat.div_mul_cancel hH
  have hWc : W / P * P = W := Nat.div_mul_cancel hW
  have c1 : ([B, C, H / P, P, W / P, P] : List ℕ).prod
      = ([B, C, H, W] : List ℕ).prod := by
    simp only [List.prod_cons, List.prod_nil]
    conv_rhs => rw [← hHc, ← hWc]
    ring
  have mnorm : ([0, 2, 4, 3, 5, 1].map
      fun a => ([B, C, H / P, P, W / P, P] : List ℕ).getD a 0)
      = [B, H / P, W / P, P, P, C] := rfl
  have c2 : ([B, H / P * (W / P), P * P * C] : List ℕ).prod
      = ([B, H / P, W / P, P, P, C] : List ℕ).prod := by
    simp only [List.prod_cons, List.prod_nil]
    ring
  simp only [patchify, hHm, hWm, and_self, if_true, Tensor.reshape, c1,
    Tensor.permute]
  rw [Option.some_bind]
  simp only [mnorm]
  rw [if_pos c2]

theorem unpatchify_eval (dat : ℕ → ℚ) (B s P C : ℕ) (hP : 0 < P) :
    unpatchify ⟨[B, s * s, P * P * C], dat⟩ P =
      some ⟨[B, C, s * P, s * P], fun l =>
        dat (flatten [B, s, s, P, P, C] (fun m =>
          unflatten [B, C, s, P, s, P] l
            ([0, 5, 1, 3, 2, 4].indexOf m)))⟩ := by
  have hs : Nat.sqrt (s * s) = s := Nat.sqrt_eq s
  have hC : P * P * C / (P * P) = C :=
    Nat.mul_div_cancel_left C (Nat.mul_pos hP hP)
  have c1 : ([B, s, s, P, P, C] : List ℕ).prod
      = ([B, s * s, P * P * C] : List ℕ).prod := by
    simp only [List.prod_cons, List.prod_nil]
    ring
  have mnorm : ([0, 5, 1, 3, 2, 4].map
      fun a => ([B, s, s, P, P, C] : List ℕ).getD a 0)
      = [B, C, s, P, s, P] := rfl
  have c2 : ([B, C, s * P, s * P] : List ℕ).prod
      = ([B, C, s, P, s, P] : List ℕ).prod := by
    simp only [List.prod_cons, List.prod_nil]
    ring
  simp only [unpatchify, hs, hC, Tensor.reshape, c1, eq_self_iff_true,
    if_true, Tensor.permute]
  rw [Option.some_bind]
  simp only [mnorm]
  rw [if_pos c2]

/-- C1 (amended): for square images (height = width, both multiples of the
patch size), decoding the encoding is the exact identity on the image
batch, for any batch size and channel count. -/
theorem patchify_unpatchify_roundtrip_square (t : Tensor) (B C H W P : ℕ)
    (hsh : t.shape = [B, C, H, W]) (hP : 0 < P) (hH : P ∣ H) (hW : P ∣ W)
    (hsq : H = W) : Tensor.OBitEq (roundTrip t P) t := by
  obtain ⟨sh, dat⟩ := t
  simp only at hsh
  subst hsh
  subst hsq
  unfold roundTrip
  rw [patchify_eval dat B C H H P hH hH, Option.some_bind,
    unpatchify_eval _ B (H / P) P C hP]
  constructor
  · rw [Nat.div_mul_cancel hH]
  · intro l hl
    have hl1 : l < ([B, C, H / P, P, H / P, P] : List ℕ).prod := by
      simp only [List.prod_cons, List.prod_nil] at hl ⊢
      have hHc : H / P * P = H / P * P := rfl
      calc l < B * (C * (H / P * P * (H / P * P * 1))) := hl
        _ = B * (C * (H / P * (P * (H / P * (P * 1))))) := by ring
    have hb : ∀ a, a < ([B, H / P, H / P, P, P, C] : List ℕ).length →
        (fun m => unflatten [B, C, H / P, P, H / P, P] l
          ([0, 5, 1, 3, 2, 4].indexOf m)) a
          < ([B, H / P, H / P, P, P, C] : List ℕ).getD a 0 := by
      intro a ha
      simp only [List.length_cons, List.length_nil] at ha
      interval_cases a
      · exact unflatten_lt hl1 0 (by norm_num)
      · exact unflatten_lt hl1 2 (by norm_num)
      · exact unflatten_lt hl1 4 (by norm_num)
      · exact unflatten_lt hl1 3 (by norm_num)
      · exact unflatten_lt hl1 5 (by norm_num)
      · exact unflatten_lt hl1 1 (by norm_num)
    have step1 : flatten [B, C, H / P, P, H / P, P] (fun m' =>
        unflatten [B, H / P, H / P, P, P, C]
          (flatten [B, H / P, H / P, P, P, C] (fun m =>
            unflatten [B, C, H / P, P, H / P, P] l
              ([0, 5, 1, 3, 2, 4].indexOf m)))
          ([0, 2, 4, 3, 5, 1].indexOf m'))
        = flatten [B, C, H / P, P, H / P, P] (fun m' =>
            unflatten [B, C, H / P, P, H / P, P] l m') := by
      apply flatten_congr
      intro a ha
      simp only [List.length_cons, List.length_nil] at ha
      interval_cases a
      · exact unflatten_flatten hb 0 (by norm_num)
      · exact unflatten_flatten hb 5 (by norm_num)
      · exact unflatten_flatten hb 1 (by norm_num)
      · exact unflatten_flatten hb 3 (by norm_num)
      · exact unflatten_flatten hb 2 (by norm_num)
      · exact unflatten_flatten hb 4 (by norm_num)
    show dat _ = dat l
    rw [step1, flatten_unflatten hl1]

/-- C1 counterexample: a 1x1x1x4 image batch has height 1 and width 4,
both multiples of patch size 1, yet decode(encode(x,1),1) is a 1x1x2x2
batch (unpatchify assumes a square patch grid), so the round trip is not
the identity on all batches whose spatial dimensions are multiples of P. -/
theorem roundtrip_fails_nonsquare_image :
    (1 : ℕ) ∣ 1 ∧ (1 : ℕ) ∣ 4 ∧
    ¬ Tensor.OBitEq (roundTrip ⟨[1, 1, 1, 4], fun l => (l : ℚ)⟩ 1)
      ⟨[1, 1, 1, 4], fun l => (l : ℚ)⟩ := by
  refine ⟨⟨1, rfl⟩, ⟨4, rfl⟩, ?_⟩
  intro h
  unfold roundTrip at h
  rw [patchify_eval (fun l => (l : ℚ)) 1 1 1 4 1 ⟨1, rfl⟩ ⟨4, rfl⟩,
    Option.some_bind, unpatchify_eval _ 1 2 1 1 Nat.one_pos] at h
  have h14 : ([1, 1, 2 * 1, 2 * 1] : List ℕ) = [1, 1, 1, 4] := h.1
  simp at h14

/-- Witness for the amended C1 theorem at a concrete square batch. -/
theorem patchify_unpatchify_roundtrip_square_witness :
    Tensor.OBitEq (roundTrip ⟨[1, 1, 2, 2], fun l => (l : ℚ)⟩ 2)
      ⟨[1, 1, 2, 2], fun l => (l : ℚ)⟩ :=
  patchify_unpatchify_roundtrip_square _ 1 1 2 2 2 rfl (by norm_num)
    ⟨1, rfl⟩ ⟨1, rfl⟩ rfl

/-- C6: on a [B, C, H, W] batch with positive patch size, patchify fails
(the assert raises, synchronously at call time) exactly when H or W is
not divisible by the patch size, and otherwise succeeds and returns a
patch sequence of shape [B, (H/P)*(W/P), P*P*C]. -/
theorem patchify_shape_check (t : Tensor) (B C H W P : ℕ)
    (hsh : t.shape = [B, C, H, W]) (hP : 0 < P) :
    (¬ (P ∣ H ∧ P ∣ W) → patchify t P = none) ∧
    (P ∣ H → P ∣ W → (patchify t P).map Tensor.shape =
      some [B, H / P * (W / P), P * P * C]) := by
  obtain ⟨sh, dat⟩ := t
  simp only at hsh
  subst hsh
  constructor
  · intro hnd
    have hm : ¬ (H % P = 0 ∧ W % P = 0) := by
      rw [← Nat.dvd_iff_mod_eq_zero, ← Nat.dvd_iff_mod_eq_zero]
      exact hnd
    simp only [patchify, if_neg hm]
  · intro hH hW
    rw [patchify_eval dat B C H W P hH hW]
    rfl

/-- Witness for C6 at the concrete scenario of the spec: a [2,3,8,8]
batch with patch size 4 encodes to shape [2,4,48]. -/
theorem patchify_shape_check_witness :
    0 < 4 ∧ (patchify ⟨[2, 3, 8, 8], fun l => (l : ℚ)⟩ 4).map Tensor.shape
      = some [2, 4, 48] :=
  ⟨by norm_num,
    (patchify_shape_check ⟨[2, 3, 8, 8], fun l => (l : ℚ)⟩ 2 3 8 8 4 rfl
      (by norm_num)).2 (by norm_num) (by norm_num)⟩

/-- C8 (amended): on a [B, N, D] sequence with positive patch size,
unpatchify fails (the reshape raises a size mismatch) whenever N is not a
perfect square, provided the batch is nonempty and the patch dimension is
nonzero (a degenerate all-empty tensor reshapes successfully); for square
N with D = P*P*C it succeeds and returns images of shape
[B, C, sqrt(N)*P, sqrt(N)*P]. -/
theorem unpatchify_square_check (t : Tensor) (B N D P : ℕ)
    (hsh : t.shape = [B, N, D]) (hP : 0 < P) :
    (1 ≤ B → 1 ≤ D → Nat.sqrt N * Nat.sqrt N ≠ N → unpatchify t P = none) ∧
    (∀ C, D = P * P * C → Nat.sqrt N * Nat.sqrt N = N →
      (unpatchify t P).map Tensor.shape =
        some [B, C, Nat.sqrt N * P, Nat.sqrt N * P]) := by
  obtain ⟨sh, dat⟩ := t
  simp only at hsh
  subst hsh
  constructor
  · intro hB hD hns
    have hlt : Nat.sqrt N * Nat.sqrt N < N :=
      lt_of_le_of_ne (Nat.sqrt_le N) hns
    have hq : D / (P * P) * (P * P) ≤ D := Nat.div_mul_le_self D (P * P)
    have hne : ([B, Nat.sqrt N, Nat.sqrt N, P, P, D / (P * P)] : List ℕ).prod
        ≠ ([B, N, D] : List ℕ).prod := by
      simp only [List.prod_cons, List.prod_nil]
      apply Nat.ne_of_lt
      calc B * (Nat.sqrt N * (Nat.sqrt N * (P * (P * (D / (P * P) * 1)))))
          = B * (Nat.sqrt N * Nat.sqrt N * (D / (P * P) * (P * P))) := by ring
        _ ≤ B * (Nat.sqrt N * Nat.sqrt N * D) :=
            Nat.mul_le_mul_left B (Nat.mul_le_mul_left _ hq)
        _ < B * (N * D) :=
            Nat.mul_lt_mul_of_le_of_lt (Nat.le_refl B)
              (Nat.mul_lt_mul_of_lt_of_le hlt (Nat.le_refl D) hD) hB
        _ = B * (N * (D * 1)) := by ring
    simp only [unpatchify, Tensor.reshape, if_neg hne, Option.none_bind]
  · intro C hD hsq
    subst hD
    rw [show ([B, N, P * P * C] : List ℕ)
        = [B, Nat.sqrt N * Nat.sqrt N, P * P * C] from by rw [hsq]]
    rw [unpatchify_eval dat B (Nat.sqrt N) P C hP]
    rfl

/-- C8 counterexample: an empty batch of two 48-dimensional patches has
N = 2, not a perfect square, yet unpatchify succeeds (reshape of an
empty tensor passes its size check) and returns a [0,3,4,4] batch. -/
theorem sqrt_two_eq_one : Nat.sqrt 2 = 1 := by
  symm
  rw [Nat.eq_sqrt]
  norm_num

theorem unpatchify_empty_batch_succeeds :
    Nat.sqrt 2 * Nat.sqrt 2 ≠ 2 ∧
    (unpatchify ⟨[0, 2, 48], fun _ => 0⟩ 4).map Tensor.shape
      = some [0, 3, 4, 4] := by
  rw [sqrt_two_eq_one]
  constructor
  · norm_num
  · simp only [unpatchify, sqrt_two_eq_one, Tensor.reshape, Tensor.permute]
    rfl

/-- Witness for the amended C8 theorem: a nonempty batch with a
non-square patch count fails. -/
theorem unpatchify_square_check_witness :
    0 < 4 ∧ (1 : ℕ) ≤ 1 ∧ (1 : ℕ) ≤ 48 ∧ Nat.sqrt 2 * Nat.sqrt 2 ≠ 2 ∧
    unpatchify ⟨[1, 2, 48], fun _ => 0⟩ 4 = none :=
  ⟨by norm_num, by norm_num, by norm_num,
    by rw [sqrt_two_eq_one]; norm_num,
    (unpatchify_square_check ⟨[1, 2, 48], fun _ => 0⟩ 1 2 48 4 rfl
      (by norm_num)).1 (by norm_num) (by norm_num)
      (by rw [sqrt_two_eq_one]; norm_num)⟩

/-- C2: every row of the returned mask sums to N minus the floor-derived
keep count int(N*(1-mask_ratio)), for any mask ratio in (0,1), any batch
and any random draw. -/
theorem random_masking_mask_row_sum {B N D : ℕ}
    (patches : Fin B → Fin N → Fin D → ℚ) (mask_ratio : ℚ)
    (noise : Fin B → Fin N → ℚ) (h0 : 0 < mask_ratio) (h1 : mask_ratio < 1)
    (b : Fin B) :
    ∑ n, (random_masking patches mask_ratio noise).2 b n
      = (N : ℚ) - ⌊(N : ℚ) * (1 - mask_ratio)⌋ := by
  have hq0 : (0 : ℚ) ≤ (N : ℚ) * (1 - mask_ratio) :=
    mul_nonneg (Nat.cast_nonneg N) (by linarith)
  have hfl0 : 0 ≤ ⌊(N : ℚ) * (1 - mask_ratio)⌋ := Int.floor_nonneg.mpr hq0
  have hflN : ⌊(N : ℚ) * (1 - mask_ratio)⌋ ≤ (N : ℤ) := by
    have hle : (N : ℚ) * (1 - mask_ratio) ≤ (N : ℚ) := by
      nlinarith [Nat.cast_nonneg (α := ℚ) N]
    calc ⌊(N : ℚ) * (1 - mask_ratio)⌋ ≤ ⌊(N : ℚ)⌋ := Int.floor_le_floor hle
      _ = (N : ℤ) := Int.floor_natCast N
  have hlk : lenKeep N mask_ratio = (⌊(N : ℚ) * (1 - mask_ratio)⌋).toNat := by
    unfold lenKeep pyTrunc
    rw [if_pos hq0]
  have hlkN : lenKeep N mask_ratio ≤ N := by
    rw [hlk]; omega
  simp only [random_masking_mask_eq]
  rw [Equiv.sum_comp ((Tuple.sort (noise b))⁻¹)
    (fun k : Fin N => if (k : ℕ) < lenKeep N mask_ratio then (0 : ℚ) else 1)]
  rw [Fin.sum_univ_eq_sum_range
    (fun k => if k < lenKeep N mask_ratio then (0 : ℚ) else 1)]
  rw [Finset.sum_ite, Finset.sum_const, Finset.sum_const]
  have hfilter : (Finset.range N).filter
      (fun k => ¬ k < lenKeep N mask_ratio)
      = Finset.Ico (lenKeep N mask_ratio) N := by
    ext k
    simp only [Finset.mem_filter, Finset.mem_range, Finset.mem_Ico, Nat.not_lt]
    omega
  rw [hfilter, Nat.card_Ico]
  have hcast : ((lenKeep N mask_ratio : ℕ) : ℚ)
      = (⌊(N : ℚ) * (1 - mask_ratio)⌋ : ℚ) := by
    rw [hlk]
    exact_mod_cast congrArg (fun z : ℤ => (z : ℚ)) (Int.toNat_of_nonneg hfl0)
  rw [smul_zero, zero_add, nsmul_eq_mul, mul_one, Nat.cast_sub hlkN, hcast]

/-- A concrete 1x2x1 patch batch and a concrete random draw, used by the
witnesses below. -/
def wPatches : Fin 1 → Fin 2 → Fin 1 → ℚ := fun _ _ _ => 5

/-- A concrete noise draw for the witnesses below. -/
def wNoise : Fin 1 → Fin 2 → ℚ := fun _ n => ((n : ℕ) : ℚ)

/-- Witness for C2 at a concrete batch, ratio 1/2 and draw. -/
theorem random_masking_mask_row_sum_witness :
    (0 : ℚ) < 1 / 2 ∧ (1 / 2 : ℚ) < 1 ∧
    ∑ n, (random_masking wPatches (1 / 2) wNoise).2 0 n
      = (((2 : ℕ)) : ℚ) - ⌊(((2 : ℕ)) : ℚ) * (1 - 1 / 2)⌋ :=
  ⟨by norm_num, by norm_num,
    random_masking_mask_row_sum wPatches (1 / 2) wNoise
      (by norm_num) (by norm_num) 0⟩

/-- C3: the outputs of random_masking are aligned to original patch
order: the mask is 0/1 valued, positions with mask 0 carry the original
patch unchanged, and positions with mask 1 carry the zero vector; the
masked sequence has the same shape as the input by construction. -/
theorem random_masking_alignment {B N D : ℕ}
    (patches : Fin B → Fin N → Fin D → ℚ) (mask_ratio : ℚ)
    (noise : Fin B → Fin N → ℚ) (b : Fin B) (n : Fin N) :
    ((random_masking patches mask_ratio noise).2 b n = 0 ∨
      (random_masking patches mask_ratio noise).2 b n = 1) ∧
    ∀ d, (random_masking patches mask_ratio noise).1 b n d =
      if (random_masking patches mask_ratio noise).2 b n = 0
      then patches b n d else 0 := by
  simp only [random_masking_mask_eq, random_masking_masked_eq]
  by_cases hc : (((Tuple.sort (noise b))⁻¹ n : Fin N) : ℕ)
      < lenKeep N mask_ratio
  · simp [hc]
  · simp [hc]

/-- C9: the masking policy is deterministic given its random source: with
the same random draw (the seeded generator state made explicit) and the
same input shape, the returned mask is identical, whatever the patch
contents; identical inputs then give identical masked sequences. -/
theorem random_masking_mask_deterministic {B N D : ℕ}
    (patches1 patches2 : Fin B → Fin N → Fin D → ℚ) (mask_ratio : ℚ)
    (noise : Fin B → Fin N → ℚ) :
    (random_masking patches1 mask_ratio noise).2
      = (random_masking patches2 mask_ratio noise).2 := rfl

/-- C4: for any mask with nonzero sum, the masked loss equals the
per-position squared error mean-reduced over the last dimension,
multiplied elementwise by the mask, summed, and divided by the mask sum;
in particular a perfect reconstruction gives loss exactly 0. -/
theorem compute_loss_masked_mean_formula {B N D : ℕ}
    (original reconstructed : Fin B → Fin N → Fin D → ℚ)
    (mask : Fin B → Fin N → ℚ) (h : (∑ b, ∑ n, mask b n) ≠ 0) :
    compute_loss original reconstructed mask =
      some ((∑ b, ∑ n,
        (∑ d, (original b n d - reconstructed b n d) ^ 2) / (D : ℚ)
          * mask b n) / (∑ b, ∑ n, mask b n)) ∧
    compute_loss original original mask = some 0 := by
  constructor
  · simp only [compute_loss, if_neg h]
  · simp only [compute_loss, if_neg h]
    congr 1
    have hz : ∀ b : Fin B, ∀ n : Fin N,
        (∑ d, (original b n d - original b n d) ^ 2) / (D : ℚ) * mask b n
          = 0 := by
      intro b n
      simp
    rw [Finset.sum_congr rfl fun b _ =>
      Finset.sum_congr rfl fun n _ => hz b n]
    simp

/-- Constant patch batches and masks over a 1x1x1 shape, used by the
loss witnesses below. -/
def cSeven : Fin 1 → Fin 1 → Fin 1 → ℚ := fun _ _ _ => 7

/-- All-ones 1x1x1 patch batch. -/
def cOnes : Fin 1 → Fin 1 → Fin 1 → ℚ := fun _ _ _ => 1

/-- All-zeros 1x1x1 patch batch. -/
def cZeros : Fin 1 → Fin 1 → Fin 1 → ℚ := fun _ _ _ => 0

/-- All-ones 1x1 mask (every patch hidden). -/
def cMaskOne : Fin 1 → Fin 1 → ℚ := fun _ _ => 1

/-- All-zeros 1x1 mask (no patch hidden). -/
def cMaskZero : Fin 1 → Fin 1 → ℚ := fun _ _ => 0

/-- Witness for C4: perfect reconstruction on an all-hidden 1x1x1 batch
has loss exactly 0. -/
theorem compute_loss_masked_mean_formula_witness :
    ((∑ b, ∑ n, cMaskOne b n) ≠ 0) ∧
    compute_loss cSeven cSeven cMaskOne = some 0 := by
  have h : (∑ b, ∑ n, cMaskOne b n) ≠ 0 := by
    simp [cMaskOne]
  exact ⟨h, (compute_loss_masked_mean_formula cSeven cSeven cMaskOne h).2⟩

/-- C5: the masked loss ignores reconstructed values at visible
positions: for a 0/1 mask with nonzero sum, two reconstructions that
agree wherever the mask is 1 give the same loss. -/
theorem compute_loss_visible_independent {B N D : ℕ}
    (original r1 r2 : Fin B → Fin N → Fin D → ℚ)
    (mask : Fin B → Fin N → ℚ)
    (hbin : ∀ b n, mask b n = 0 ∨ mask b n = 1)
    (hagree : ∀ b n, mask b n = 1 → ∀ d, r1 b n d = r2 b n d)
    (hsum : (∑ b, ∑ n, mask b n) ≠ 0) :
    compute_loss original r1 mask = compute_loss original r2 mask := by
  simp only [compute_loss, if_neg hsum]
  congr 2
  apply Finset.sum_congr rfl
  intro b _
  apply Finset.sum_congr rfl
  intro n _
  rcases hbin b n with h0 | h1
  · rw [h0, mul_zero, mul_zero]
  · rw [h1, mul_one, mul_one]
    have hsq : (∑ d, (original b n d - r1 b n d) ^ 2)
        = ∑ d, (original b n d - r2 b n d) ^ 2 :=
      Finset.sum_congr rfl fun d _ => by rw [hagree b n h1 d]
    rw [hsq]

/-- The mask used by the C5 witness: patch 0 hidden, patch 1 visible. -/
def wMask : Fin 1 → Fin 2 → ℚ := fun _ n => if n = 0 then 1 else 0

/-- All-zeros 1x2x1 original batch for the C5 witness. -/
def wOrig : Fin 1 → Fin 2 → Fin 1 → ℚ := fun _ _ _ => 0

/-- First reconstruction for the C5 witness: constant 3. -/
def wRecA : Fin 1 → Fin 2 → Fin 1 → ℚ := fun _ _ _ => 3

/-- Second reconstruction for the C5 witness: agrees with the first at
the hidden patch 0, differs at the visible patch 1. -/
def wRecB : Fin 1 → Fin 2 → Fin 1 → ℚ := fun _ n _ => if n = 0 then 3 else 9

/-- Witness for C5: two reconstructions that differ only at the visible
patch give the same loss on a concrete batch. -/
theorem compute_loss_visible_independent_witness :
    (∀ b n, wMask b n = 0 ∨ wMask b n = 1) ∧
    (∀ b n, wMask b n = 1 → ∀ d, wRecA b n d = wRecB b n d) ∧
    ((∑ b, ∑ n, wMask b n) ≠ 0) ∧
    compute_loss wOrig wRecA wMask = compute_loss wOrig wRecB wMask := by
  have hbin : ∀ b n, wMask b n = 0 ∨ wMask b n = 1 := by
    intro b n
    by_cases hn : n = 0 <;> simp [wMask, hn]
  have hagree : ∀ b n, wMask b n = 1 → ∀ d, wRecA b n d = wRecB b n d := by
    intro b n hm d
    by_cases hn : n = 0
    · simp [wRecA, wRecB, hn]
    · simp [wMask, hn] at hm
  have hsum : (∑ b, ∑ n, wMask b n) ≠ 0 := by
    simp [wMask, Fin.sum_univ_succ]
  exact ⟨hbin, hagree, hsum,
    compute_loss_visible_independent wOrig wRecA wRecB wMask
      hbin hagree hsum⟩

/-- C7: when the mask sums to zero the loss computation still returns (no
exception escapes to the caller); the unguarded 0/0 propagates the NaN
condition, modelled as none. -/
theorem compute_loss_zero_mask_nan {B N D : ℕ}
    (original reconstructed : Fin B → Fin N → Fin D → ℚ)
    (mask : Fin B → Fin N → ℚ) (h : (∑ b, ∑ n, mask b n) = 0) :
    compute_loss original reconstructed mask = none := by
  simp [compute_loss, h]

/-- Witness for C7 at the concrete scenario of the spec: all-ones patch
values with an all-zeros mask. -/
theorem compute_loss_zero_mask_nan_witness :
    ((∑ b, ∑ n, cMaskZero b n) = 0) ∧
    compute_loss cOnes cZeros cMaskZero = none := by
  have h : (∑ b, ∑ n, cMaskZero b n) = 0 := by
    simp [cMaskZero]
  exact ⟨h, compute_loss_zero_mask_nan cOnes cZeros cMaskZero h⟩

/-- C10 (implicit): random_masking raises no error at the degenerate
ratios.  When int(N*(1-mask_ratio)) = 0 it returns an all-ones mask and
an all-zero masked sequence; when int(N*(1-mask_ratio)) = N it returns an
all-zero mask and the input unchanged, and a subsequent compute_loss on
that all-zero mask hits the zero denominator (the NaN condition, none). -/
theorem random_masking_degenerate {B N D : ℕ}
    (patches : Fin B → Fin N → Fin D → ℚ) (mask_ratio : ℚ)
    (noise : Fin B → Fin N → ℚ) :
    (pyTrunc ((N : ℚ) * (1 - mask_ratio)) = 0 →
      (∀ b n, (random_masking patches mask_ratio noise).2 b n = 1) ∧
      (∀ b n d, (random_masking patches mask_ratio noise).1 b n d = 0)) ∧
    (pyTrunc ((N : ℚ) * (1 - mask_ratio)) = (N : ℤ) →
      (∀ b n, (random_masking patches mask_ratio noise).2 b n = 0) ∧
      (∀ b n d, (random_masking patches mask_ratio noise).1 b n d
        = patches b n d) ∧
      (∀ (E : ℕ) (original reconstructed : Fin B → Fin N → Fin E → ℚ),
        compute_loss original reconstructed
          (random_masking patches mask_ratio noise).2 = none)) := by
  constructor
  · intro h0
    have hlk : lenKeep N mask_ratio = 0 := by
      unfold lenKeep
      rw [h0]
      rfl
    constructor
    · intro b n
      rw [random_masking_mask_eq, hlk]
      simp
    · intro b n d
      rw [random_masking_masked_eq, hlk]
      simp
  · intro hN
    have hlk : lenKeep N mask_ratio = N := by
      unfold lenKeep
      rw [hN]
      simp
    have hmask : ∀ b n, (random_masking patches mask_ratio noise).2 b n
        = 0 := by
      intro b n
      rw [random_masking_mask_eq, hlk, if_pos (Fin.is_lt _)]
    refine ⟨hmask, ?_, ?_⟩
    · intro b n d
      rw [random_masking_masked_eq, hlk, if_pos (Fin.is_lt _)]
    · intro E original reconstructed
      have hz : (∑ b, ∑ n,
          (random_masking patches mask_ratio noise).2 b n) = 0 := by
        simp [hmask]
      simp [compute_loss, hz]

/-- Witness for C10: on a 2-patch batch, ratio 9/10 yields keep count 0
(all hidden) and ratio 0 yields keep count 2 = N (all visible, with the
subsequent loss hitting the zero denominator). -/
theorem random_masking_degenerate_witness :
    pyTrunc (((2 : ℕ) : ℚ) * (1 - 9 / 10)) = 0 ∧
    pyTrunc (((2 : ℕ) : ℚ) * (1 - 0)) = ((2 : ℕ) : ℤ) ∧
    (random_masking wPatches (9 / 10) wNoise).2 0 0 = 1 ∧
    (random_masking wPatches 0 wNoise).2 0 0 = 0 ∧
    compute_loss wPatches wPatches (random_masking wPatches 0 wNoise).2
      = none := by
  have h1 : pyTrunc (((2 : ℕ) : ℚ) * (1 - 9 / 10)) = 0 := by
    unfold pyTrunc
    rw [if_pos (by norm_num)]
    rw [show ((2 : ℕ) : ℚ) * (1 - 9 / 10) = 1 / 5 by norm_num]
    rw [Int.floor_eq_zero_iff.mpr]
    simp [Set.mem_Ico]
    norm_num
  have h2 : pyTrunc (((2 : ℕ) : ℚ) * (1 - 0)) = ((2 : ℕ) : ℤ) := by
    unfold pyTrunc
    rw [if_pos (by norm_num)]
    rw [show ((2 : ℕ) : ℚ) * (1 - 0) = ((2 : ℤ) : ℚ) by norm_num]
    rw [Int.floor_intCast]
    norm_num
  refine ⟨h1, h2, ?_, ?_, ?_⟩
  · exact ((random_masking_degenerate wPatches (9 / 10) wNoise).1 h1).1 0 0
  · exact ((random_masking_degenerate wPatches 0 wNoise).2 h2).1 0 0
  · exact ((random_masking_degenerate wPatches 0 wNoise).2 h2).2.2 1
      wPatches wPatches
